import Mathlib

/-!
Shallow embedding of the MEnvAgent data-curation core:
the star-range bisection enumerator of src/curation/crawl_repo.py and the
GitHub task-crawling helpers of src/curation/swe_task_crawling/utils.py.
Machine integers of the source are Python arbitrary-precision ints, embedded
as Int (or Nat for counts); timestamps are embedded as Int epoch seconds.
-/

/- ---------------- string helpers ---------------- -/

/-- Does the character list start with the given pattern list (Python str startswith)? -/
def startsWithL : List Char → List Char → Bool
  | _, [] => true
  | [], _ :: _ => false
  | a :: as, b :: bs => (a == b) && startsWithL as bs

/-- Does the first list contain the second as a contiguous sublist
(Python `w in s` on strings)? -/
def containsL : List Char → List Char → Bool
  | [], w => w.isEmpty
  | a :: as, w => startsWithL (a :: as) w || containsL as w

/-- Python substring membership `w in s`. -/
def strContains (s w : String) : Bool := containsL s.toList w.toList

/- ---------------- model of re.search(r"(\d+\.\d+)(?:\.\d+)?", name) ---------------- -/

/-- Attempt to match the pattern `(\d+\.\d+)(?:\.\d+)?` anchored at the start of the
character list and return group 1. Since a maximal greedy digit run can never
backtrack into a literal dot, the match at a position succeeds exactly when a
non-empty digit run is followed by a dot and another non-empty digit run.
Python `\d` is embedded as the ASCII digit test. -/
def matchVersionAt (l : List Char) : Option String :=
  match l.span (fun c => c.isDigit) with
  | (d1, r1) =>
    if d1.isEmpty then none
    else
      match r1 with
      | '.' :: r2 =>
        match r2.span (fun c => c.isDigit) with
        | (d2, _) =>
          if d2.isEmpty then none
          else some (String.mk (d1 ++ '.' :: d2))
      | _ => none

/-- Leftmost search: try each start position from the left, as re.search does. -/
def searchVersion : List Char → Option String
  | [] => none
  | c :: cs =>
    match matchVersionAt (c :: cs) with
    | some v => some v
    | none => searchVersion cs

/-- `re.search(r"(\d+\.\d+)(?:\.\d+)?", s)` returning `match.group(1)` when a match
exists, as used throughout Repo.get_version_at_commit. -/
def extractVersion (s : String) : Option String := searchVersion s.toList

/- ---------------- bfs_star_range (crawl_repo.py) ---------------- -/

/-- A star-count search range `(s_min, s_max)` from bfs_star_range; `high = none`
is the unbounded upper end (`s_max is None`). -/
structure SearchRange where
  low : Int
  high : Option Int
deriving DecidableEq, Repr

/-- Membership of a star count in a range: `stars:low..high` or `stars:>=low`. -/
def memR (n : Int) (r : SearchRange) : Prop :=
  r.low ≤ n ∧ (match r.high with | none => True | some h => n ≤ h)

/-- The midpoint bfs_star_range computes before splitting: `s_min + 5000` when the
upper end is unbounded, `(s_min + s_max) // 2` (Python floor division) otherwise. -/
def computedMid (r : SearchRange) : Int :=
  match r.high with
  | none => r.low + 5000
  | some h => Int.fdiv (r.low + h) 2

/-- The split step of bfs_star_range: compute the midpoint, discard the range
(`continue`) when `mid <= s_min`, otherwise produce `(s_min, mid)` and
`(mid + 1, s_max)` (with `s_max = None` kept unbounded on the right piece). -/
def splitRange (r : SearchRange) : Option (SearchRange × SearchRange) :=
  if computedMid r ≤ r.low then none
  else
    match r.high with
    | none => some (⟨r.low, some (computedMid r)⟩, ⟨computedMid r + 1, none⟩)
    | some h => some (⟨r.low, some (computedMid r)⟩, ⟨computedMid r + 1, some h⟩)

/-- Outcome of fetch_repos_in_range for one leaf range: a list of repository
records, or a failure (the `except` path of the fetch call). -/
inductive FetchResult (α : Type) where
  | ok (items : List α)
  | err
deriving DecidableEq, Repr

/-- One iteration of the bfs_star_range worklist loop on a popped range `r`,
parameterised by the count query (`none` embeds the `except` path of
get_total_count) and the fetch outcome. Returns the list of ranges the
iteration appends to the queue and the items it appends to all_results:
count failure or zero count discards the range; count above 1000 enqueues the
two split halves, or nothing when the split is degenerate; otherwise a
successful fetch accumulates its items and a failed fetch re-enqueues `r`. -/
def bfsStep {α : Type} (countOf : SearchRange → Option Nat)
    (fetchOf : SearchRange → FetchResult α) (r : SearchRange) :
    List SearchRange × List α :=
  match countOf r with
  | none => ([], [])
  | some c =>
    if c = 0 then ([], [])
    else if 1000 < c then
      match splitRange r with
      | some (r₁, r₂) => ([r₁, r₂], [])
      | none => ([], [])
    else
      match fetchOf r with
      | FetchResult.ok items => ([], items)
      | FetchResult.err => ([r], [])

/-- The bfs_star_range FIFO worklist loop (fuelled): pop the front range, run one
iteration, append the produced ranges to the back of the queue and the produced
items to all_results. -/
def bfsRun {α : Type} (countOf : SearchRange → Option Nat)
    (fetchOf : SearchRange → FetchResult α) :
    Nat → List SearchRange → List α → List α
  | 0, _, acc => acc
  | _ + 1, [], acc => acc
  | fuel + 1, r :: rest, acc =>
    bfsRun countOf fetchOf fuel (rest ++ (bfsStep countOf fetchOf r).1)
      (acc ++ (bfsStep countOf fetchOf r).2)

/- ---------------- Repo.get_version_at_commit (swe_task_crawling/utils.py) ---------------- -/

/-- One entry of the loaded tags cache: tag name, target commit oid, and the
target commit date (dateutil-parsed timestamp, embedded as epoch seconds). -/
structure Tag where
  name : String
  oid : String
  date : Int
deriving DecidableEq, Repr

/-- The key of the closest-date search:
`abs(parser.parse(x["date"]).timestamp() - commit_timestamp)`. -/
def keyDist (c : Int) (t : Tag) : Int := |t.date - c|

/-- Python `min(iterable, key=...)` over a non-empty list: fold keeping the current
best and replacing it only on a strictly smaller key, so the first minimum in
iteration order wins ties. -/
def pyMinBy (key : Tag → Int) (t : Tag) (ts : List Tag) : Tag :=
  ts.foldl (fun best x => if key x < key best then x else best) t

/-- The nearest-by-date step: version extracted from the name of the cached tag
whose date is closest to the commit date (`min` with the absolute-difference key). -/
def closestVersion (cache : List Tag) (c : Int) : Option String :=
  match cache with
  | [] => none
  | t :: ts => extractVersion (pyMinBy (keyDist c) t ts).name

/-- The final fallback: version extracted from the newest cached tag
(`self._tags_cache[0]`, the cache being sorted newest first). -/
def newestVersion (cache : List Tag) : Option String :=
  match cache with
  | [] => none
  | t :: _ => extractVersion t.name

/-- Repo.get_version_at_commit after the cache is loaded, with the commit date
already fetched (`none` embeds both a falsy date and a failed date query).
An empty cache (`if self._tags_cache:` falsy) reaches the final `return None`.
With exact-matching tags present, the version is extracted from the first one
and an unparseable name likewise reaches the final `return None` — the
nearest-by-date and newest-tag fallbacks live in the `else` branch of
`if matching_tags:` and run only when no cached tag's oid equals the commit sha. -/
def get_version_at_commit (cache : List Tag) (commitDate : Option Int)
    (sha : String) : Option String :=
  if cache.isEmpty then none
  else
    match cache.filter (fun t => decide (t.oid = sha)) with
    | t :: _ => extractVersion t.name
    | [] =>
      match (match commitDate with
             | some c => closestVersion cache c
             | none => none) with
      | some v => some v
      | none => newestVersion cache

/- ---------------- _extract_hints (swe_task_crawling/utils.py) ---------------- -/

/-- An issue comment as paginated by get_issue_comments: body and updatedAt
(strptime/mktime result embedded as epoch seconds). -/
structure IssueComment where
  body : String
  updatedAt : Int
deriving DecidableEq, Repr

/-- A pull-request commit as paginated by get_pull_commits: the author date
(dateutil-parsed timestamp embedded as epoch seconds) and the commit url. -/
structure PRCommit where
  authorDate : Int
  url : String
deriving DecidableEq, Repr

/-- The comments kept for the hint text: those whose updatedAt strictly precedes
the first commit's author date (`if comment_time < commit_time`). -/
def hintKept (commitTime : Int) (comments : List IssueComment) : List IssueComment :=
  comments.filter (fun cm => decide (cm.updatedAt < commitTime))

/-- _extract_hints given the PR's commit list and the issue's comment list:
with no commits it returns two empty texts and no urls; otherwise it joins with
newlines the bodies of the comments updated before the first commit's author
date (hint text), the bodies of all comments (all-hint text), and returns every
commit's url. -/
def _extract_hints (commits : List PRCommit) (comments : List IssueComment) :
    String × String × List String :=
  match commits with
  | [] => ("", "", [])
  | c0 :: rest =>
    (String.intercalate ("\n") ((hintKept c0.authorDate comments).map IssueComment.body),
     String.intercalate ("\n") (comments.map IssueComment.body),
     (c0 :: rest).map PRCommit.url)

/- ---------------- extract_patches (swe_task_crawling/utils.py) ---------------- -/

/-- One file hunk of the PR diff as iterated by `for hunk in PatchSet(patch)`:
its file path and its string rendering `str(hunk)`. -/
structure FileHunk where
  path : String
  text : String
deriving DecidableEq, Repr

/-- `any(test_word in hunk.path for test_word in ['test', 'tests', 'e2e', 'testing'])`. -/
def isTestPath (path : String) : Bool :=
  [("test" : String), "tests", "e2e", "testing"].any (fun w => strContains path w)

/-- In-order concatenation of a list of strings. -/
def concatStrs : List String → String
  | [] => ""
  | a :: l => a ++ concatStrs l

/-- extract_patches: fold over the diff's file hunks appending each hunk's text to
the test patch when its path contains a test-indicating word and to the fix
patch otherwise, returning `(patch_fix, patch_test)`. -/
def extract_patches : List FileHunk → String × String
  | [] => ("", "")
  | h :: hs =>
    match extract_patches hs with
    | (fixRest, testRest) =>
      if isTestPath h.path then (fixRest, h.text ++ testRest)
      else (h.text ++ fixRest, testRest)

/- ---------------- Repo.get_all_loop (swe_task_crawling/utils.py) ---------------- -/

/-- One page of a paginated GraphQL result: the extracted `nodes` list and the
`pageInfo.hasNextPage` flag. -/
structure Page (α : Type) where
  nodes : List α
  hasNextPage : Bool
deriving DecidableEq, Repr

/-- The page-count bound test `num_pages is not None and page >= num_pages`. -/
def pageBound (numPages : Option Nat) (page : Nat) : Bool :=
  match numPages with
  | some n => decide (n ≤ page)
  | none => false

/-- Repo.get_all_loop as a fuelled loop over a page oracle indexed by page number
(the cursor advance `after = endCursor` moves the oracle to the next page).
Following the source's order: extract the page's nodes; if the list is empty,
break at once; otherwise yield the nodes, then break when the page bound
`num_pages` is reached, then break when hasNextPage is false, else advance.
`none` signals fuel exhaustion (the loop still running), `some l` a terminated
loop having yielded `l`. -/
def get_all_loop {α : Type} (pageFn : Nat → Page α) (numPages : Option Nat) :
    Nat → Nat → Option (List α)
  | 0, _ => none
  | fuel + 1, page =>
    if (pageFn page).nodes.isEmpty then some []
    else if pageBound numPages page then some (pageFn page).nodes
    else if !(pageFn page).hasNextPage then some (pageFn page).nodes
    else
      match get_all_loop pageFn numPages fuel (page + 1) with
      | some rest => some ((pageFn page).nodes ++ rest)
      | none => none

/- ---------------- Repo.call_api, 403 branch (swe_task_crawling/utils.py) ---------------- -/

/-- A Python value as it appears in the 403 branch of call_api:
`response.headers.get('x-ratelimit-remaining')` evaluates to a str or None. -/
inductive PyVal where
  | vstr (s : String)
  | vint (n : Int)
  | vnone
deriving DecidableEq, Repr

/-- Python `x > n` against an int: defined only when `x` is itself a number;
comparing a str or None with an int raises TypeError. -/
def pyGtInt : PyVal → Int → Except String Bool
  | PyVal.vint m, n => Except.ok (decide (n < m))
  | PyVal.vstr _, _ => Except.error ("TypeError")
  | PyVal.vnone, _ => Except.error ("TypeError")

/-- The body of call_api's `elif response.status_code == 403:` branch:
`rl = response.headers.get('x-ratelimit-remaining')` (a str, or None when the
header is absent — no int() conversion on this path, unlike the HTTPError
handler below it) followed by `if rl > 0: break` else a 5-minute sleep and a
re-read of the same header. The first comparison already decides the branch's
fate: `Except.ok true` would break and retry the request, `Except.ok false`
would sleep and loop, and `Except.error` is an exception none of the except
clauses (transport errors and requests HTTPError) catches, so call_api raises. -/
def call_api_on_403 (rlHeader : Option String) : Except String Unit :=
  match pyGtInt (match rlHeader with
                 | some s => PyVal.vstr s
                 | none => PyVal.vnone) 0 with
  | Except.ok true => Except.ok ()
  | Except.ok false => Except.ok ()
  | Except.error e => Except.error e

/- ---------------- extract_problem_statement_and_hints (swe_task_crawling/utils.py) ---------------- -/

/-- The fields of a resolved issue used by extract_problem_statement_and_hints
(the GraphQL issue of get_issue: number, title, body, with falsy title/body
already replaced by the empty string as the source does). -/
structure IssueInfo where
  number : Nat
  title : String
  body : String
deriving DecidableEq, Repr

/-- One iteration of the loop over pull["resolved_issues"], threading the state
(problem_text, hint_text, all_hint_text, commit_urls) where commit_urls is
`none` while the variable is still unbound. A `none` issue (`get_issue`
returned None) is skipped by `continue`; otherwise the issue's title and body
are appended to the problem text, the per-issue hints of _extract_hints are
appended to the two hint texts, and commit_urls is overwritten (not appended). -/
def assembleStep (getIssue : Nat → Option IssueInfo)
    (hintsFor : Nat → String × String × List String)
    (st : String × String × String × Option (List String)) (n : Nat) :
    String × String × String × Option (List String) :=
  match getIssue n with
  | none => st
  | some iss =>
    (st.1 ++ iss.title ++ ("\n") ++ iss.body ++ ("\n"),
     st.2.1 ++ (hintsFor iss.number).1 ++ ("\n\n"),
     st.2.2.1 ++ (hintsFor iss.number).2.1 ++ ("\n\n"),
     some (hintsFor iss.number).2.2)

/-- extract_problem_statement_and_hints on the non-django path, parameterised by
the issue lookup and by the per-issue result of _extract_hints. The final
`return problem_text, hint_text, all_hint_text, commit_urls` reads commit_urls,
which the loop body may never have assigned: that read of an unbound local is a
NameError, embedded as the error case. -/
def extract_problem_statement_and_hints (resolvedIssues : List Nat)
    (getIssue : Nat → Option IssueInfo)
    (hintsFor : Nat → String × String × List String) :
    Except String (String × String × String × List String) :=
  match resolvedIssues.foldl (assembleStep getIssue hintsFor) ("", "", "", none) with
  | (pt, ht, aht, some urls) => Except.ok (pt, ht, aht, urls)
  | (_, _, _, none) => Except.error ("NameError: commit_urls")

/- ================================================================
   Theorems
   ================================================================ -/

/-- C1, counterexample: a single-value bounded range with a count above 1000 is
not split into two sub-ranges — the computed midpoint `(5 + 5) // 2 = 5` does
not exceed the lower bound, so the worklist iteration discards the range and
enqueues nothing, contradicting the claim's unconditional "splits it into
exactly two sub-ranges". -/
theorem c1_split_counterexample :
    (fun _ : SearchRange => some 1001) (⟨5, some 5⟩ : SearchRange) = some 1001
    ∧ 1000 < 1001
    ∧ splitRange ⟨5, some 5⟩ = none
    ∧ bfsStep (fun _ => some 1001) (fun _ => (FetchResult.err : FetchResult Unit))
        ⟨5, some 5⟩ = ([], []) := by
  decide

/-- C1 (amended): for every popped range whose count query returns more than
1000 and whose split is non-degenerate (the computed midpoint strictly exceeds
the lower bound, so splitRange produces a pair), the iteration enqueues exactly
the two sub-ranges [low, mid] and [mid + 1, high] — [low, low + 5000] and
[low + 5001, unbounded) when high is unbounded — whose union equals the
original range and whose intersection is empty. -/
theorem c1_split_partition {α : Type} (countOf : SearchRange → Option Nat)
    (fetchOf : SearchRange → FetchResult α) (r r₁ r₂ : SearchRange) (c : Nat)
    (hc : countOf r = some c) (hgt : 1000 < c)
    (hs : splitRange r = some (r₁, r₂)) :
    bfsStep countOf fetchOf r = ([r₁, r₂], [])
    ∧ (∀ n : Int, memR n r ↔ (memR n r₁ ∨ memR n r₂))
    ∧ (∀ n : Int, ¬(memR n r₁ ∧ memR n r₂))
    ∧ (r.high = none → r₁ = ⟨r.low, some (r.low + 5000)⟩
        ∧ r₂ = ⟨r.low + 5001, none⟩) := by
  obtain ⟨rlow, rhigh⟩ := r
  have hstep : bfsStep countOf fetchOf ⟨rlow, rhigh⟩ = ([r₁, r₂], []) := by
    simp only [bfsStep, hc, hs]
    rw [if_neg (by omega), if_pos hgt]
  refine ⟨hstep, ?_⟩
  cases rhigh with
  | none =>
    simp only [splitRange, computedMid] at hs
    rw [if_neg (by omega)] at hs
    simp only [Option.some.injEq, Prod.mk.injEq] at hs
    obtain ⟨h₁, h₂⟩ := hs
    subst h₁
    subst h₂
    refine ⟨fun n => ?_, fun n => ?_,
      fun _ => ⟨rfl, by simp only [SearchRange.mk.injEq]; exact ⟨by omega, trivial⟩⟩⟩
    · simp only [memR, and_true]
      omega
    · simp only [memR, and_true]
      omega
  | some h =>
    simp only [splitRange, computedMid] at hs
    by_cases hle : Int.fdiv (rlow + h) 2 ≤ rlow
    · rw [if_pos hle] at hs
      cases hs
    · rw [if_neg hle] at hs
      simp only [Option.some.injEq, Prod.mk.injEq] at hs
      obtain ⟨h₁, h₂⟩ := hs
      subst h₁
      subst h₂
      rw [Int.fdiv_eq_ediv _ (by omega)] at hle
      refine ⟨fun n => ?_, fun n => ?_, fun hn => Option.noConfusion hn⟩
      · simp only [memR, Int.fdiv_eq_ediv _ (by omega : (0:Int) ≤ 2)]
        omega
      · simp only [memR, Int.fdiv_eq_ediv _ (by omega : (0:Int) ≤ 2)]
        omega

/-- C1, witness: applying the amended split theorem to the concrete range
[0, 10] with count 1001, obtaining the halves [0, 5] and [6, 10] and their
partition property. -/
theorem c1_split_witness :
    bfsStep (fun _ => some 1001) (fun _ => (FetchResult.err : FetchResult Unit))
        ⟨0, some 10⟩ = ([⟨0, some 5⟩, ⟨6, some 10⟩], [])
    ∧ (∀ n : Int, memR n ⟨0, some 10⟩ ↔ (memR n ⟨0, some 5⟩ ∨ memR n ⟨6, some 10⟩)) := by
  have h := c1_split_partition (fun _ => some 1001)
      (fun _ => (FetchResult.err : FetchResult Unit))
      ⟨0, some 10⟩ ⟨0, some 5⟩ ⟨6, some 10⟩ 1001 rfl (by omega) (by decide)
  exact ⟨h.1, h.2.1⟩

/-- C2: a popped range whose count exceeds 1000 but whose computed midpoint does
not strictly exceed its lower bound is discarded: the iteration enqueues
nothing (in particular it does not re-enqueue the range itself, so no looping),
and one step of the worklist loop on such a front range leaves the rest of the
queue and the accumulated results unchanged. -/
theorem c2_degenerate_discard {α : Type} (countOf : SearchRange → Option Nat)
    (fetchOf : SearchRange → FetchResult α) (r : SearchRange) (c : Nat)
    (hc : countOf r = some c) (hgt : 1000 < c) (hmid : computedMid r ≤ r.low) :
    bfsStep countOf fetchOf r = ([], [])
    ∧ (∀ fuel rest acc, bfsRun countOf fetchOf (fuel + 1) (r :: rest) acc
        = bfsRun countOf fetchOf fuel rest acc) := by
  have hstep : bfsStep countOf fetchOf r = ([], []) := by
    have hsplit : splitRange r = none := by
      unfold splitRange
      rw [if_pos hmid]
    simp only [bfsStep, hc, hsplit]
    rw [if_neg (by omega), if_pos hgt]
  refine ⟨hstep, fun fuel rest acc => ?_⟩
  simp [bfsRun, hstep]

/-- C2, witness: the single-value range [5, 5] with count 1001 has midpoint 5,
is discarded, and one loop step on it consumes it without enqueuing anything. -/
theorem c2_degenerate_witness :
    bfsStep (fun _ => some 1001) (fun _ => (FetchResult.err : FetchResult Unit))
        ⟨5, some 5⟩ = ([], [])
    ∧ bfsRun (fun _ => some 1001) (fun _ => (FetchResult.err : FetchResult Unit))
        1 [⟨5, some 5⟩] [] = ([] : List Unit) := by
  have h := c2_degenerate_discard (fun _ => some 1001)
      (fun _ => (FetchResult.err : FetchResult Unit))
      ⟨5, some 5⟩ 1001 rfl (by omega) (by decide)
  exact ⟨h.1, by rw [h.2 0 [] []]; rfl⟩

/-- Python `min(..., key=...)` keeps the first minimum: the selected element
occurs in the list, its key is minimal, and every element strictly before it
has a strictly larger key. -/
theorem pyMinBy_first_min (key : Tag → Int) :
    ∀ (ts : List Tag) (t : Tag),
      ∃ l₁ l₂, t :: ts = l₁ ++ pyMinBy key t ts :: l₂
        ∧ (∀ u ∈ t :: ts, key (pyMinBy key t ts) ≤ key u)
        ∧ (∀ u ∈ l₁, key (pyMinBy key t ts) < key u) := by
  intro ts
  induction ts with
  | nil =>
    intro t
    refine ⟨[], [], rfl, ?_, ?_⟩
    · intro u hu
      rcases List.mem_cons.mp hu with h1 | h2
      · subst h1
        exact le_refl _
      · cases h2
    · intro u hu
      cases hu
  | cons x ts ih =>
    intro t
    have hfold : pyMinBy key t (x :: ts) = pyMinBy key (if key x < key t then x else t) ts := rfl
    by_cases hlt : key x < key t
    · rw [hfold, if_pos hlt]
      obtain ⟨l₁, l₂, hdecomp, hmin, hstrict⟩ := ih x
      refine ⟨t :: l₁, l₂, ?_, ?_, ?_⟩
      · rw [List.cons_append, ← hdecomp]
      · intro u hu
        rcases List.mem_cons.mp hu with h1 | h2
        · subst h1
          have hx := hmin x (by exact List.mem_cons_self x ts)
          omega
        · exact hmin u h2
      · intro u hu
        rcases List.mem_cons.mp hu with h1 | h2
        · subst h1
          have hx := hmin x (by exact List.mem_cons_self x ts)
          omega
        · exact hstrict u h2
    · rw [hfold, if_neg hlt]
      obtain ⟨l₁, l₂, hdecomp, hmin, hstrict⟩ := ih t
      cases l₁ with
      | nil =>
        rw [List.nil_append] at hdecomp
        injection hdecomp with h1 h2
        refine ⟨[], x :: ts, ?_, ?_, fun u hu => absurd hu (List.not_mem_nil u)⟩
        · rw [List.nil_append, ← h1]
        · intro u hu
          rcases List.mem_cons.mp hu with h3 | h4
          · subst h3
            rw [← h1]
          · rcases List.mem_cons.mp h4 with h5 | h6
            · subst h5
              rw [← h1]
              omega
            · exact hmin u (List.mem_cons_of_mem t h6)
      | cons t' l₁' =>
        rw [List.cons_append] at hdecomp
        injection hdecomp with h1 h2
        have hstrict' : ∀ u ∈ t :: l₁', key (pyMinBy key t ts) < key u :=
          fun u hu => hstrict u (h1 ▸ hu)
        have hmt : key (pyMinBy key t ts) < key t := hstrict' t (List.mem_cons_self t l₁')
        refine ⟨t :: x :: l₁', l₂, ?_, ?_, ?_⟩
        · rw [List.cons_append, List.cons_append, ← h2]
        · intro u hu
          rcases List.mem_cons.mp hu with h3 | h4
          · rw [h3]
            exact hmin t (List.mem_cons_self t ts)
          · rcases List.mem_cons.mp h4 with h5 | h6
            · rw [h5]
              omega
            · exact hmin u (List.mem_cons_of_mem t h6)
        · intro u hu
          rcases List.mem_cons.mp hu with h3 | h4
          · rw [h3]
            exact hmt
          · rcases List.mem_cons.mp h4 with h5 | h6
            · rw [h5]
              omega
            · exact hstrict' u (List.mem_cons_of_mem t h6)

/-- C5: with a non-empty loaded cache, no exact oid match, and a known commit
date, the nearest-by-date step selects the cached tag minimising the absolute
date distance to the commit, ties broken by cache order (first minimum wins);
when that tag's name parses, its major.minor version is returned. -/
theorem c5_nearest_by_date (t : Tag) (ts : List Tag) (c : Int) (sha : String)
    (hno : ∀ u ∈ t :: ts, u.oid ≠ sha) :
    (∃ l₁ l₂, t :: ts = l₁ ++ pyMinBy (keyDist c) t ts :: l₂
      ∧ (∀ u ∈ t :: ts, keyDist c (pyMinBy (keyDist c) t ts) ≤ keyDist c u)
      ∧ (∀ u ∈ l₁, keyDist c (pyMinBy (keyDist c) t ts) < keyDist c u))
    ∧ (∀ v, extractVersion (pyMinBy (keyDist c) t ts).name = some v →
        get_version_at_commit (t :: ts) (some c) sha = some v) := by
  refine ⟨pyMinBy_first_min (keyDist c) ts t, fun v hv => ?_⟩
  have hfilter : (t :: ts).filter (fun u => decide (u.oid = sha)) = [] := by
    apply List.filter_eq_nil_iff.mpr
    intro u hu
    simp [hno u hu]
  simp [get_version_at_commit, hfilter, closestVersion, hv]

/-- C5, witness: commit at epoch 0, one tag 10 days earlier and one 2 days
later — resolution selects the 2-day-distant tag and returns its version. -/
theorem c5_nearest_witness :
    get_version_at_commit [⟨"v2.0", "t2", 172800⟩, ⟨"v1.0", "t1", -864000⟩]
      (some 0) "zzz" = some ("2.0") := by
  have h := c5_nearest_by_date ⟨"v2.0", "t2", 172800⟩ [⟨"v1.0", "t1", -864000⟩]
      0 ("zzz") (by decide)
  exact h.2 ("2.0") (by decide)

/-- C3, counterexample: a cached tag whose target commit equals the queried sha
and whose name contains the substring v2.5.1 — but the leftmost major.minor
occurrence in the name is 1.0, so resolution returns 1.0, not 2.5. -/
theorem c3_exact_match_counterexample :
    ((⟨"1.0v2.5.1", "abc", 0⟩ : Tag).oid = "abc"
      ∧ strContains (Tag.mk ("1.0v2.5.1") ("abc") 0).name ("v2.5.1") = true)
    ∧ get_version_at_commit [⟨"1.0v2.5.1", "abc", 0⟩] (some 0) "abc" = some ("1.0")
    ∧ get_version_at_commit [⟨"1.0v2.5.1", "abc", 0⟩] (some 0) "abc" ≠ some ("2.5") := by
  decide

/-- C3 (amended): when the first cached tag whose target commit equals the
queried sha has a name whose leftmost major.minor match is 2.5 (as with the
name v2.5.1 itself), get_version_at_commit returns the string 2.5. -/
theorem c3_exact_match (cache : List Tag) (cd : Option Int) (sha : String)
    (t : Tag) (rest : List Tag)
    (hfilter : cache.filter (fun u => decide (u.oid = sha)) = t :: rest)
    (hver : extractVersion t.name = some ("2.5")) :
    get_version_at_commit cache cd sha = some ("2.5") := by
  have hne : cache.isEmpty = false := by
    cases cache with
    | nil => simp at hfilter
    | cons a l => rfl
  simp [get_version_at_commit, hne, hfilter, hver]

/-- C3, witness: a single cached tag named v2.5.1 targeting the queried commit
resolves to 2.5. -/
theorem c3_exact_match_witness :
    get_version_at_commit [⟨"v2.5.1", "abc", 0⟩] (some 0) "abc" = some ("2.5") :=
  c3_exact_match [⟨"v2.5.1", "abc", 0⟩] (some 0) "abc" ⟨"v2.5.1", "abc", 0⟩ []
    (by decide) (by decide)

/-- C4, counterexample: the first exact-matching tag's name has no major.minor
pattern, the commit date is known, and another cached tag is parseable — yet
resolution returns none: the nearest-by-date and newest-tag steps live in the
else branch of the exact-match test, so an unparseable exact match falls to
the final return None, not to the nearest-by-date step. -/
theorem c4_no_fallthrough_counterexample :
    ((⟨"nover", "abc", 0⟩ : Tag).oid = "abc"
      ∧ extractVersion ("nover") = none
      ∧ extractVersion ("v1.2") = some ("1.2"))
    ∧ get_version_at_commit [⟨"nover", "abc", 0⟩, ⟨"v1.2", "xyz", 100⟩]
        (some 90) "abc" = none := by
  decide

/-- C4 (amended): when some cached tag's target commit equals the queried sha
but the first such tag's name contains no major.minor pattern,
get_version_at_commit returns none (not found); it does not fall through to
the nearest-by-date or newest-tag steps, which run only when no cached tag
matches exactly. -/
theorem c4_exact_unparseable_none (cache : List Tag) (cd : Option Int) (sha : String)
    (t : Tag) (rest : List Tag)
    (hfilter : cache.filter (fun u => decide (u.oid = sha)) = t :: rest)
    (hver : extractVersion t.name = none) :
    get_version_at_commit cache cd sha = none := by
  have hne : cache.isEmpty = false := by
    cases cache with
    | nil => simp at hfilter
    | cons a l => rfl
  simp [get_version_at_commit, hne, hfilter, hver]

/-- C4, witness: the counterexample cache run through the amended theorem —
an exact match with unparseable name yields none despite a known commit date
and a parseable second tag. -/
theorem c4_exact_unparseable_witness :
    get_version_at_commit [⟨"nover", "abc", 0⟩, ⟨"v1.2", "xyz", 100⟩]
      (some 90) "abc" = none :=
  c4_exact_unparseable_none [⟨"nover", "abc", 0⟩, ⟨"v1.2", "xyz", 100⟩]
    (some 90) "abc" ⟨"nover", "abc", 0⟩ [] (by decide) (by decide)

/-- C6: for a comment of the issue and a PR with a first commit, a comment
updated strictly before the first commit's author date is kept for the hint
text (and its body appears in both the hint-comment bodies and the all-comment
bodies), while a comment updated strictly after it is excluded from the hint
comments and appears among the all-comment bodies only; the hint text and
all-hint text of _extract_hints are exactly the newline-joins of those two
body lists. -/
theorem c6_hint_cutoff (c0 : PRCommit) (rest : List PRCommit)
    (comments : List IssueComment) (cm : IssueComment) (hmem : cm ∈ comments) :
    ((cm.updatedAt < c0.authorDate →
        cm ∈ hintKept c0.authorDate comments
        ∧ cm.body ∈ (hintKept c0.authorDate comments).map IssueComment.body
        ∧ cm.body ∈ comments.map IssueComment.body)
      ∧ (c0.authorDate < cm.updatedAt →
        cm ∉ hintKept c0.authorDate comments
        ∧ cm.body ∈ comments.map IssueComment.body))
    ∧ _extract_hints (c0 :: rest) comments
      = (String.intercalate ("\n") ((hintKept c0.authorDate comments).map IssueComment.body),
         String.intercalate ("\n") (comments.map IssueComment.body),
         (c0 :: rest).map PRCommit.url) := by
  refine ⟨⟨fun hlt => ?_, fun hgt => ?_⟩, rfl⟩
  · have h1 : cm ∈ hintKept c0.authorDate comments :=
      List.mem_filter.mpr ⟨hmem, decide_eq_true hlt⟩
    exact ⟨h1, List.mem_map.mpr ⟨cm, h1, rfl⟩, List.mem_map.mpr ⟨cm, hmem, rfl⟩⟩
  · refine ⟨fun hin => ?_, List.mem_map.mpr ⟨cm, hmem, rfl⟩⟩
    have h2 := of_decide_eq_true (List.mem_filter.mp hin).2
    omega

/-- C6, witness: with the first commit authored at time 10, a comment updated
at 5 is kept for the hint text and a comment updated at 20 is not. -/
theorem c6_hint_cutoff_witness :
    ((⟨"early", 5⟩ : IssueComment) ∈ hintKept 10 [⟨"early", 5⟩, ⟨"late", 20⟩])
    ∧ ((⟨"late", 20⟩ : IssueComment) ∉ hintKept 10 [⟨"early", 5⟩, ⟨"late", 20⟩]) := by
  constructor
  · exact ((c6_hint_cutoff ⟨10, "u"⟩ [] [⟨"early", 5⟩, ⟨"late", 20⟩] ⟨"early", 5⟩
      (by decide)).1.1 (by decide)).1
  · exact ((c6_hint_cutoff ⟨10, "u"⟩ [] [⟨"early", 5⟩, ⟨"late", 20⟩] ⟨"late", 20⟩
      (by decide)).1.2 (by decide)).1

/-- C7: extract_patches partitions the diff's file hunks by path substring —
the test patch is the in-order concatenation of the hunks whose path contains
one of test, tests, e2e, testing, and the fix patch is the in-order
concatenation of all the others; in particular a hunk for src/app.py lands in
the fix patch and a hunk for tests/test_app.py in the test patch. -/
theorem c7_patch_partition :
    (∀ hunks : List FileHunk,
      extract_patches hunks
        = (concatStrs ((hunks.filter (fun h => !isTestPath h.path)).map FileHunk.text),
           concatStrs ((hunks.filter (fun h => isTestPath h.path)).map FileHunk.text)))
    ∧ extract_patches [⟨"src/app.py", "FIXHUNK"⟩, ⟨"tests/test_app.py", "TESTHUNK"⟩]
        = ("FIXHUNK", "TESTHUNK") := by
  constructor
  · intro hunks
    induction hunks with
    | nil => rfl
    | cons h hs ih =>
      by_cases ht : isTestPath h.path
      · simp [extract_patches, ih, ht, List.filter_cons, concatStrs]
      · simp [extract_patches, ih, ht, List.filter_cons, concatStrs]
  · decide

/-- One-step unfolding of the paginator loop on positive fuel. -/
theorem get_all_loop_succ {α : Type} (pageFn : Nat → Page α) (numPages : Option Nat)
    (fuel page : Nat) :
    get_all_loop pageFn numPages (fuel + 1) page
      = if (pageFn page).nodes.isEmpty then some []
        else if pageBound numPages page then some (pageFn page).nodes
        else if !(pageFn page).hasNextPage then some (pageFn page).nodes
        else
          match get_all_loop pageFn numPages fuel (page + 1) with
          | some rest => some ((pageFn page).nodes ++ rest)
          | none => none := rfl

/-- Whenever some later page has an empty nodes list, the paginator loop
started at the current page terminates within a fuel bound of the distance to
that page, for every page-count bound. -/
theorem get_all_loop_terminates {α : Type} (pageFn : Nat → Page α)
    (numPages : Option Nat) :
    ∀ (j k : Nat), (pageFn (k + j)).nodes = [] →
      ∃ l, get_all_loop pageFn numPages (j + 1) k = some l := by
  intro j
  induction j with
  | zero =>
    intro k hk
    rw [Nat.add_zero] at hk
    refine ⟨[], ?_⟩
    rw [get_all_loop_succ, if_pos]
    rw [hk]
    rfl
  | succ j ih =>
    intro k hk
    have hkj : k + (j + 1) = k + 1 + j := by omega
    rw [hkj] at hk
    obtain ⟨l, hl⟩ := ih (k + 1) hk
    rw [get_all_loop_succ]
    by_cases he : (pageFn k).nodes.isEmpty = true
    · rw [if_pos he]
      exact ⟨[], rfl⟩
    · rw [if_neg he]
      by_cases hb : pageBound numPages k = true
      · rw [if_pos hb]
        exact ⟨(pageFn k).nodes, rfl⟩
      · rw [if_neg hb]
        by_cases hn : (!(pageFn k).hasNextPage) = true
        · rw [if_pos hn]
          exact ⟨(pageFn k).nodes, rfl⟩
        · rw [if_neg hn, hl]
          exact ⟨(pageFn k).nodes ++ l, rfl⟩

/-- C8: a page whose extracted nodes list is empty terminates the paginator at
once — nothing from that page is yielded and neither hasNextPage nor the
page-count bound is consulted (the outcome is `some []` for every bound and
every hasNextPage value) — and consequently the produced sequence is finite
whenever some reachable page has an empty nodes list. -/
theorem c8_empty_page_short_circuit {α : Type} (pageFn : Nat → Page α)
    (numPages : Option Nat) (fuel k j : Nat) :
    ((pageFn k).nodes = [] → get_all_loop pageFn numPages (fuel + 1) k = some [])
    ∧ ((pageFn (k + j)).nodes = [] →
        ∃ l, get_all_loop pageFn numPages (j + 1) k = some l) := by
  constructor
  · intro hk
    simp [get_all_loop, hk]
  · exact get_all_loop_terminates pageFn numPages j k

/-- C8, witness: a page oracle whose page 2 is empty — the loop started at
page 2 returns `some []` even with hasNextPage true and a page bound present,
and the loop started at page 1 terminates having yielded page 1's nodes. -/
theorem c8_empty_page_witness :
    get_all_loop (fun k => if k = 1 then (⟨["a"], true⟩ : Page String) else ⟨[], true⟩)
        (some 5) 3 2 = some []
    ∧ ∃ l, get_all_loop (fun k => if k = 1 then (⟨["a"], true⟩ : Page String) else ⟨[], true⟩)
        none 2 1 = some l := by
  constructor
  · exact (c8_empty_page_short_circuit
      (fun k => if k = 1 then (⟨["a"], true⟩ : Page String) else ⟨[], true⟩)
      (some 5) 2 2 0).1 (by decide)
  · exact (c8_empty_page_short_circuit
      (fun k => if k = 1 then (⟨["a"], true⟩ : Page String) else ⟨[], true⟩)
      none 1 1 1).2 (by decide)

/-- C9: on every HTTP 403 response the 403 branch of call_api raises a
TypeError instead of busy-polling: the header value read without int()
conversion is a str (or None when the header is absent), and Python's
`rl > 0` comparison between str-or-None and int raises — an exception none of
call_api's except clauses catches, so the call raises rather than sleeping,
retrying, or rotating credentials. -/
theorem c9_403_raises_type_error (rlHeader : Option String) :
    call_api_on_403 rlHeader = Except.error ("TypeError") := by
  cases rlHeader <;> rfl

/-- Folding the resolved-issues loop over issues that all fail to resolve
leaves the loop state unchanged (every iteration hits the `continue`). -/
theorem assemble_foldl_const (getIssue : Nat → Option IssueInfo)
    (hintsFor : Nat → String × String × List String) :
    ∀ (l : List Nat) (st : String × String × String × Option (List String)),
      (∀ n ∈ l, getIssue n = none) →
      l.foldl (assembleStep getIssue hintsFor) st = st := by
  intro l
  induction l with
  | nil =>
    intro st _
    rfl
  | cons n l ih =>
    intro st hall
    have hn : getIssue n = none := hall n (List.mem_cons_self n l)
    have hstep : assembleStep getIssue hintsFor st n = st := by
      simp [assembleStep, hn]
    rw [List.foldl_cons, hstep]
    exact ih st (fun m hm => hall m (List.mem_cons_of_mem n hm))

/-- C10: when the resolved-issues list is empty or every issue lookup returns
none, the loop never assigns commit_urls and the final return raises NameError
on the unbound variable; and when some issue resolves, the returned
commit_urls is exactly the list computed for the last resolving issue
(each iteration overwrites it). -/
theorem c10_commit_urls_unbound (resolvedIssues : List Nat)
    (getIssue : Nat → Option IssueInfo)
    (hintsFor : Nat → String × String × List String) :
    ((∀ n ∈ resolvedIssues, getIssue n = none) →
      extract_problem_statement_and_hints resolvedIssues getIssue hintsFor
        = Except.error ("NameError: commit_urls"))
    ∧ (∀ l₁ m l₂ iss, resolvedIssues = l₁ ++ m :: l₂ → getIssue m = some iss →
        (∀ n ∈ l₂, getIssue n = none) →
        ∃ pt ht aht, extract_problem_statement_and_hints resolvedIssues getIssue hintsFor
          = Except.ok (pt, ht, aht, (hintsFor iss.number).2.2)) := by
  constructor
  · intro hall
    unfold extract_problem_statement_and_hints
    rw [assemble_foldl_const getIssue hintsFor resolvedIssues _ hall]
  · intro l₁ m l₂ iss hsplit hm hall
    unfold extract_problem_statement_and_hints
    rw [hsplit, List.foldl_append, List.foldl_cons,
        assemble_foldl_const getIssue hintsFor l₂ _ hall]
    simp [assembleStep, hm]

/-- C10, witness: with both issue lookups returning none the assembler raises
NameError on commit_urls; with issues 1 and 2 both resolving, the result
carries the commit-url list computed for issue 2, the last one processed. -/
theorem c10_commit_urls_witness :
    extract_problem_statement_and_hints [1, 2] (fun _ => none)
        (fun _ => (("h" : String), ("ah" : String), (["u"] : List String)))
      = Except.error ("NameError: commit_urls")
    ∧ ∃ pt ht aht,
        extract_problem_statement_and_hints [1, 2]
            (fun n => if n = 0 then none else some ⟨n, "t", "b"⟩)
            (fun _ => (("h" : String), ("ah" : String), (["u"] : List String)))
          = Except.ok (pt, ht, aht, (["u"] : List String)) := by
  constructor
  · exact (c10_commit_urls_unbound [1, 2] (fun _ => none)
      (fun _ => ("h", "ah", ["u"]))).1 (fun n _ => rfl)
  · exact (c10_commit_urls_unbound [1, 2]
      (fun n => if n = 0 then none else some ⟨n, "t", "b"⟩)
      (fun _ => ("h", "ah", ["u"]))).2 [1] 2 [] ⟨2, "t", "b"⟩ rfl (by decide)
      (fun n hn => absurd hn (List.not_mem_nil n))
